import Mathlib

/-!
Verification of the chain-state validation engine declared in src/validation.h
of the Safe repository: block-file statistics, address-amount records, the
UTXO view with block connect/disconnect and undo data, BIP68 sequence locks,
the signature cache, mempool admission, the block-index map, and best-chain
activation.  Structures whose bodies appear in the header are translated
directly; operations the header only declares are modelled from the design
document, as marked in their doc comments.
-/

set_option maxHeartbeats 1000000

/-! ## CBlockFileInfo (validation.h lines 1546-1598) -/

/-- Block-file statistics; all counter fields are C unsigned integers. -/
structure CBlockFileInfo where
  nBlocks : Nat
  nSize : Nat
  nUndoSize : Nat
  nHeightFirst : Nat
  nHeightLast : Nat
  nTimeFirst : Nat
  nTimeLast : Nat
deriving DecidableEq, Repr

/-- Modulus of the C type unsigned int. -/
def UINT32_MOD : Nat := 4294967296

/-- CBlockFileInfo.SetNull (lines 1570-1578): zero every field. -/
def CBlockFileInfo.setNull : CBlockFileInfo := ⟨0, 0, 0, 0, 0, 0, 0⟩

/-- CBlockFileInfo.AddBlock (lines 1587-1597).  The first-height and
first-time updates test nBlocks before it is incremented; nBlocks is a C
unsigned int, so the increment wraps modulo 2^32. -/
def CBlockFileInfo.addBlock (s : CBlockFileInfo) (nHeightIn nTimeIn : Nat) : CBlockFileInfo :=
  let hFirst := if s.nBlocks = 0 ∨ s.nHeightFirst > nHeightIn then nHeightIn else s.nHeightFirst
  let tFirst := if s.nBlocks = 0 ∨ s.nTimeFirst > nTimeIn then nTimeIn else s.nTimeFirst
  let hLast := if nHeightIn > s.nHeightLast then nHeightIn else s.nHeightLast
  let tLast := if nTimeIn > s.nTimeLast then nTimeIn else s.nTimeLast
  { s with nBlocks := (s.nBlocks + 1) % UINT32_MOD,
           nHeightFirst := hFirst, nHeightLast := hLast,
           nTimeFirst := tFirst, nTimeLast := tLast }

/-- A sequence of AddBlock calls applied in order. -/
def applyAddBlocks (s : CBlockFileInfo) (calls : List (Nat × Nat)) : CBlockFileInfo :=
  calls.foldl (fun acc c => acc.addBlock c.1 c.2) s

theorem applyAddBlocks_nBlocks (calls : List (Nat × Nat)) (s : CBlockFileInfo)
    (hs : s.nBlocks < UINT32_MOD) :
    (applyAddBlocks s calls).nBlocks = (s.nBlocks + calls.length) % UINT32_MOD := by
  induction calls generalizing s with
  | nil =>
    simpa [applyAddBlocks] using (Nat.mod_eq_of_lt hs).symm
  | cons c cs ih =>
    have hs2 : (s.addBlock c.1 c.2).nBlocks < UINT32_MOD := by
      have : (s.addBlock c.1 c.2).nBlocks = (s.nBlocks + 1) % UINT32_MOD := rfl
      rw [this]
      exact Nat.mod_lt _ (by norm_num [UINT32_MOD])
    have step : applyAddBlocks s (c :: cs) = applyAddBlocks (s.addBlock c.1 c.2) cs := rfl
    rw [step, ih (s.addBlock c.1 c.2) hs2]
    have hb : (s.addBlock c.1 c.2).nBlocks = (s.nBlocks + 1) % UINT32_MOD := rfl
    rw [hb, Nat.mod_add_mod]
    congr 1
    simp only [List.length_cons]
    omega

theorem applyAddBlocks_append (s : CBlockFileInfo) (l : List (Nat × Nat)) (x : Nat × Nat) :
    applyAddBlocks s (l ++ [x]) = (applyAddBlocks s l).addBlock x.1 x.2 := by
  simp [applyAddBlocks]

/-- Preservation step for the ordering invariants, for any state whose
counter is positive and will not wrap. -/
theorem addBlock_preserves (s : CBlockFileInfo) (x : Nat × Nat)
    (_hb : s.nBlocks ≠ 0) (hlt : s.nBlocks + 1 < UINT32_MOD)
    (hh : s.nHeightFirst ≤ s.nHeightLast) (ht : s.nTimeFirst ≤ s.nTimeLast) :
    (s.addBlock x.1 x.2).nBlocks = s.nBlocks + 1 ∧
    (s.addBlock x.1 x.2).nHeightFirst ≤ (s.addBlock x.1 x.2).nHeightLast ∧
    (s.addBlock x.1 x.2).nTimeFirst ≤ (s.addBlock x.1 x.2).nTimeLast := by
  simp only [CBlockFileInfo.addBlock]
  refine ⟨Nat.mod_eq_of_lt hlt, ?_, ?_⟩ <;> split_ifs <;> omega

theorem applyAddBlocks_invariants (l : List (Nat × Nat)) (c : Nat × Nat)
    (hlen : (c :: l).length < UINT32_MOD) :
    (applyAddBlocks CBlockFileInfo.setNull (c :: l)).nBlocks = (c :: l).length ∧
    (applyAddBlocks CBlockFileInfo.setNull (c :: l)).nHeightFirst ≤
      (applyAddBlocks CBlockFileInfo.setNull (c :: l)).nHeightLast ∧
    (applyAddBlocks CBlockFileInfo.setNull (c :: l)).nTimeFirst ≤
      (applyAddBlocks CBlockFileInfo.setNull (c :: l)).nTimeLast := by
  induction l using List.reverseRecOn with
  | nil =>
    refine ⟨?_, ?_, ?_⟩
    · show (1 : Nat) % UINT32_MOD = 1
      exact Nat.mod_eq_of_lt (by norm_num [UINT32_MOD])
    · show c.1 ≤ (if c.1 > 0 then c.1 else 0)
      split_ifs <;> omega
    · show c.2 ≤ (if c.2 > 0 then c.2 else 0)
      split_ifs <;> omega
  | append_singleton l x ih =>
    have hlen1 : (c :: l).length < UINT32_MOD := by
      simp only [List.length_cons, List.length_append, List.length_singleton] at hlen ⊢
      omega
    obtain ⟨h1, h2, h3⟩ := ih hlen1
    have hcons : c :: (l ++ [x]) = (c :: l) ++ [x] := rfl
    rw [hcons, applyAddBlocks_append]
    have hb : (applyAddBlocks CBlockFileInfo.setNull (c :: l)).nBlocks ≠ 0 := by
      rw [h1]; simp
    have hlt : (applyAddBlocks CBlockFileInfo.setNull (c :: l)).nBlocks + 1 < UINT32_MOD := by
      rw [h1]
      simp only [List.length_cons, List.length_append, List.length_singleton] at hlen
      simp only [List.length_cons]
      omega
    obtain ⟨g1, g2, g3⟩ := addBlock_preserves _ x hb hlt h2 h3
    refine ⟨?_, g2, g3⟩
    rw [g1, h1]
    simp only [List.length_cons, List.length_append, List.length_singleton, List.length_nil]

/-- C9 counterexample: starting from SetNull, after 2^32 + 1 AddBlock calls
the wrapped unsigned counter nBlocks is 1, which is positive but is not the
number of AddBlock calls made. -/
theorem CBlockFileInfo_addBlock_wrap_counterexample :
    0 < (applyAddBlocks CBlockFileInfo.setNull (List.replicate (UINT32_MOD + 1) ((0 : Nat), (0 : Nat)))).nBlocks ∧
    (applyAddBlocks CBlockFileInfo.setNull (List.replicate (UINT32_MOD + 1) ((0 : Nat), (0 : Nat)))).nBlocks ≠
      (List.replicate (UINT32_MOD + 1) ((0 : Nat), (0 : Nat))).length := by
  have h := applyAddBlocks_nBlocks (List.replicate (UINT32_MOD + 1) ((0 : Nat), (0 : Nat)))
    CBlockFileInfo.setNull (by norm_num [CBlockFileInfo.setNull, UINT32_MOD])
  rw [List.length_replicate] at h
  have hs0 : CBlockFileInfo.setNull.nBlocks = 0 := rfl
  rw [hs0, Nat.zero_add, Nat.add_mod_left] at h
  have h1 : (1 : Nat) % UINT32_MOD = 1 := Nat.mod_eq_of_lt (by norm_num [UINT32_MOD])
  rw [h1] at h
  rw [h, List.length_replicate]
  norm_num [UINT32_MOD]

/-- C9 (amended): starting from SetNull, after any nonempty sequence of fewer
than 2^32 AddBlock calls, nHeightFirst is at most nHeightLast, nTimeFirst is
at most nTimeLast, and nBlocks equals the number of AddBlock calls made. -/
theorem CBlockFileInfo_addBlock_invariants (c : Nat × Nat) (l : List (Nat × Nat))
    (hlen : (c :: l).length < UINT32_MOD) :
    (applyAddBlocks CBlockFileInfo.setNull (c :: l)).nBlocks = (c :: l).length ∧
    (applyAddBlocks CBlockFileInfo.setNull (c :: l)).nHeightFirst ≤
      (applyAddBlocks CBlockFileInfo.setNull (c :: l)).nHeightLast ∧
    (applyAddBlocks CBlockFileInfo.setNull (c :: l)).nTimeFirst ≤
      (applyAddBlocks CBlockFileInfo.setNull (c :: l)).nTimeLast :=
  applyAddBlocks_invariants l c hlen

/-- C9 witness: a concrete three-call sequence satisfies the amended claim. -/
theorem CBlockFileInfo_addBlock_invariants_witness :
    (applyAddBlocks CBlockFileInfo.setNull [(5, 100), (3, 200), (9, 50)]).nBlocks = 3 ∧
    (applyAddBlocks CBlockFileInfo.setNull [(5, 100), (3, 200), (9, 50)]).nHeightFirst ≤
      (applyAddBlocks CBlockFileInfo.setNull [(5, 100), (3, 200), (9, 50)]).nHeightLast ∧
    (applyAddBlocks CBlockFileInfo.setNull [(5, 100), (3, 200), (9, 50)]).nTimeFirst ≤
      (applyAddBlocks CBlockFileInfo.setNull [(5, 100), (3, 200), (9, 50)]).nTimeLast := by
  have h := CBlockFileInfo_addBlock_invariants (5, 100) [(3, 200), (9, 50)]
    (by norm_num [UINT32_MOD])
  simpa using h

/-! ## CAddressAmount (validation.h lines 989-1040) -/

/-- Bytes written by strncpy(dst, src, n) into a buffer that was first
memset to zero: the bytes of src up to its first null are copied, at most n
of them, and the remaining positions of the n-byte region keep their zero. -/
def strncpyZeroed (src : List Nat) (n : Nat) : List Nat :=
  (src.takeWhile (fun b => b ≠ 0) ++ List.replicate n 0).take n

/-- The 36-byte szAddress buffer produced by every CAddressAmount
constructor and by operator=: memset to zero followed by
strncpy(szAddress, src, sizeof(szAddress) - 1); byte 35 always keeps its
zero, so the buffer is always null-terminated. -/
def mkSzAddress (src : List Nat) : List Nat := strncpyZeroed src 35 ++ [0]

/-- CAddressAmount: a 36-byte C character array and an amount. -/
structure CAddressAmount where
  szAddress : List Nat
  nAmount : Int
deriving DecidableEq, Repr

/-- The two non-default constructors (lines 1000-1012): both memset the
buffer and strncpy at most 35 bytes of the input address. -/
def CAddressAmount.make (src : List Nat) (amt : Int) : CAddressAmount :=
  ⟨mkSzAddress src, amt⟩

/-- The default constructor (lines 994-998): all-zero buffer, zero amount. -/
def CAddressAmount.makeDefault : CAddressAmount := ⟨List.replicate 36 0, 0⟩

/-- operator= (lines 1014-1024): memset plus strncpy from the other record. -/
def CAddressAmount.assign (d : CAddressAmount) : CAddressAmount :=
  ⟨mkSzAddress d.szAddress, d.nAmount⟩

/-- The C string held in a buffer: its bytes up to the first null. -/
def cstrOf (b : List Nat) : List Nat := b.takeWhile (fun x => x ≠ 0)

/-- Ordering of two C strings, byte by byte, as strcmp computes it. -/
def lexCmp : List Nat → List Nat → Ordering
  | [], [] => .eq
  | [], _ :: _ => .lt
  | _ :: _, [] => .gt
  | a :: as, b :: bs => if a < b then .lt else if b < a then .gt else lexCmp as bs

/-- The strcmp(a.szAddress, b.szAddress) comparison that all three
comparison operators of CAddressAmount (lines 1026-1039) are built from;
none of them reads nAmount. -/
def CAddressAmount.cmp (a b : CAddressAmount) : Ordering :=
  lexCmp (cstrOf a.szAddress) (cstrOf b.szAddress)

/-- operator< (lines 1031-1034). -/
def CAddressAmount.ltOp (a b : CAddressAmount) : Bool := a.cmp b == .lt

/-- operator> (lines 1026-1029). -/
def CAddressAmount.gtOp (a b : CAddressAmount) : Bool := a.cmp b == .gt

/-- operator== (lines 1036-1039). -/
def CAddressAmount.eqOp (a b : CAddressAmount) : Bool := a.cmp b == .eq

theorem lexCmp_self (l : List Nat) : lexCmp l l = .eq := by
  induction l with
  | nil => rfl
  | cons a as ih => simp [lexCmp, ih]

theorem takeWhile_append_last {p : Nat → Bool} (xs : List Nat) (e : Nat)
    (h : ∀ x ∈ xs, p x = true) (he : p e = false) :
    (xs ++ [e]).takeWhile p = xs := by
  induction xs with
  | nil => simp [List.takeWhile, he]
  | cons a as ih =>
    have ha : p a = true := h a (by simp)
    simp only [List.cons_append, List.takeWhile_cons, ha, if_true]
    rw [ih (fun x hx => h x (by simp [hx]))]

theorem takeWhile_eq_self_of_all {p : Nat → Bool} (xs : List Nat)
    (h : ∀ x ∈ xs, p x = true) : xs.takeWhile p = xs := by
  induction xs with
  | nil => rfl
  | cons a as ih =>
    have ha : p a = true := h a (by simp)
    simp only [List.takeWhile_cons, ha, if_true]
    rw [ih (fun x hx => h x (by simp [hx]))]

theorem mkSzAddress_length (src : List Nat) : (mkSzAddress src).length = 36 := by
  simp only [mkSzAddress, strncpyZeroed, List.length_append, List.length_take,
    List.length_replicate, List.length_singleton]
  omega

theorem mkSzAddress_getLast (src : List Nat) :
    (mkSzAddress src).getLast? = some 0 := by
  simp [mkSzAddress]

/-- C10: the comparison operators of CAddressAmount depend only on the
szAddress field — records with the same address but different amounts
compare equal — and every constructor and the assignment operator produce a
36-byte buffer whose final byte is null, truncating a null-free input
address longer than 35 bytes to its first 35 bytes. -/
theorem CAddressAmount_cmp_and_truncation :
    (∀ (a b : CAddressAmount) (x y : Int),
      CAddressAmount.eqOp ⟨a.szAddress, x⟩ ⟨b.szAddress, y⟩ = CAddressAmount.eqOp a b ∧
      CAddressAmount.ltOp ⟨a.szAddress, x⟩ ⟨b.szAddress, y⟩ = CAddressAmount.ltOp a b ∧
      CAddressAmount.gtOp ⟨a.szAddress, x⟩ ⟨b.szAddress, y⟩ = CAddressAmount.gtOp a b) ∧
    (∀ (s : List Nat) (x y : Int),
      CAddressAmount.eqOp ⟨s, x⟩ ⟨s, y⟩ = true) ∧
    (∀ (src : List Nat) (amt : Int),
      ((CAddressAmount.make src amt).szAddress).length = 36 ∧
      ((CAddressAmount.make src amt).szAddress).getLast? = some 0) ∧
    (CAddressAmount.makeDefault.szAddress.length = 36 ∧
      CAddressAmount.makeDefault.szAddress.getLast? = some 0) ∧
    (∀ (d : CAddressAmount),
      ((CAddressAmount.assign d).szAddress).length = 36 ∧
      ((CAddressAmount.assign d).szAddress).getLast? = some 0) ∧
    (∀ (src : List Nat) (amt : Int), (0 ∉ src) → 35 < src.length →
      cstrOf ((CAddressAmount.make src amt).szAddress) = src.take 35) := by
  refine ⟨?_, ?_, ?_, ?_, ?_, ?_⟩
  · intro a b x y
    exact ⟨rfl, rfl, rfl⟩
  · intro s x y
    simp only [CAddressAmount.eqOp, CAddressAmount.cmp, lexCmp_self]
    rfl
  · intro src amt
    exact ⟨mkSzAddress_length src, mkSzAddress_getLast src⟩
  · exact ⟨rfl, rfl⟩
  · intro d
    exact ⟨mkSzAddress_length d.szAddress, mkSzAddress_getLast d.szAddress⟩
  · intro src amt h0 hlen
    have hall : ∀ x ∈ src, (fun b => decide (b ≠ 0)) x = true := by
      intro x hx
      simp only [decide_eq_true_eq, ne_eq]
      intro hx0
      exact h0 (hx0 ▸ hx)
    have htw : src.takeWhile (fun b => decide (b ≠ 0)) = src :=
      takeWhile_eq_self_of_all src hall
    have hfill : strncpyZeroed src 35 = src.take 35 := by
      simp only [strncpyZeroed, htw]
      rw [List.take_append_of_le_length (by omega)]
    show cstrOf (strncpyZeroed src 35 ++ [0]) = src.take 35
    rw [hfill]
    refine takeWhile_append_last (src.take 35) 0 ?_ (by simp)
    intro x hx
    have hxs : x ∈ src := List.mem_of_mem_take hx
    simp only [decide_eq_true_eq, ne_eq]
    intro hx0
    exact h0 (hx0 ▸ hxs)

/-- C10 witness: a concrete 36-byte null-free address is truncated to its
first 35 bytes, and records sharing an address but with different amounts
compare equal. -/
theorem CAddressAmount_cmp_and_truncation_witness :
    cstrOf ((CAddressAmount.make (List.replicate 36 7) 5).szAddress) =
      (List.replicate 36 7).take 35 ∧
    CAddressAmount.eqOp ⟨mkSzAddress [1, 2], 10⟩ ⟨mkSzAddress [1, 2], 20⟩ = true := by
  have h := CAddressAmount_cmp_and_truncation
  refine ⟨h.2.2.2.2.2 (List.replicate 36 7) 5 (by decide) (by decide), ?_⟩
  exact h.2.1 (mkSzAddress [1, 2]) 10 20

/-! ## UTXO view and block connect/disconnect

The bodies of ConnectBlock, DisconnectBlock and UpdateCoins are not part of
src/validation.h (only their declarations, lines 1511-1522 and 1401-1402);
the definitions below are modelled from sections 3, 4.1 and 4.4 of the
design document. -/

/-- An outpoint: (transaction id, output index). -/
abbrev OutPoint := Nat × Nat

/-- A UTXO record value: amount, locking script (abstract), creation
height, coinbase flag. -/
structure Coin where
  amount : Int
  script : Nat
  height : Nat
  isCoinbase : Bool
deriving DecidableEq, Repr

/-- The key to value content of a UTXO set. -/
abbrev UtxoMap := OutPoint → Option Coin

/-- Pointwise update of a UTXO map. -/
def updMap (m : UtxoMap) (p : OutPoint) (v : Option Coin) : UtxoMap :=
  fun q => if q = p then v else m q

/-- Modelled from the spec: the UTXO View of section 4.1 — unspent-output
content plus the best-block marker recording which block the view
represents. -/
@[ext]
structure CoinsView where
  utxo : UtxoMap
  bestBlock : Nat

/-- A transaction output. -/
structure TxOut where
  amount : Int
  script : Nat
deriving DecidableEq, Repr

/-- A BIP68 relative-lock requirement encoded on an input: none, a number
of confirmations, or an elapsed-time requirement. -/
inductive RelLock
  | unlocked
  | blocks (n : Nat)
  | time (t : Nat)
deriving DecidableEq, Repr

/-- A transaction input: the outpoint it spends and its relative lock. -/
structure TxIn where
  prevout : OutPoint
  relLock : RelLock
deriving DecidableEq, Repr

/-- A transaction. -/
structure Tx where
  txid : Nat
  vin : List TxIn
  vout : List TxOut
  isCoinbase : Bool
deriving DecidableEq, Repr

/-- A block index entry as ConnectBlock and DisconnectBlock consume it:
own hash, parent hash, height. -/
structure BIndex where
  hash : Nat
  parentHash : Nat
  height : Nat
deriving DecidableEq, Repr

/-- A block: its hash and its transaction list. -/
structure Block where
  hashB : Nat
  txs : List Tx
deriving DecidableEq, Repr

/-- Modelled from the spec: spend the referenced inputs of one transaction
from the view; every referenced coin must currently exist (unknown input or
double spend fails the operation), and each removed Coin is archived, in
input order, as the undo record (section 4.4, ConnectBlock). -/
def spendInputs : List TxIn → UtxoMap → Option (UtxoMap × List (OutPoint × Coin))
  | [], m => some (m, [])
  | i :: is, m =>
    match m i.prevout with
    | none => none
    | some c =>
      match spendInputs is (updMap m i.prevout none) with
      | none => none
      | some (m2, u) => some (m2, (i.prevout, c) :: u)

/-- The outpoints a transaction with the given id creates, starting at
output index i. -/
def createdKeys (txid : Nat) : Nat → List TxOut → List OutPoint
  | _, [] => []
  | i, _ :: os => (txid, i) :: createdKeys txid (i + 1) os

/-- The outpoints a transaction creates. -/
def createdKeysOfTx (t : Tx) : List OutPoint := createdKeys t.txid 0 t.vout

/-- Modelled from the spec: insert the outputs of a transaction as new UTXO
records (section 4.4); a key that already exists is not silently
overwritten — the operation fails instead. -/
def addOutputs (txid hgt : Nat) (cb : Bool) : Nat → List TxOut → UtxoMap → Option UtxoMap
  | _, [], m => some m
  | i, o :: os, m =>
    match m (txid, i) with
    | some _ => none
    | none => addOutputs txid hgt cb (i + 1) os (updMap m (txid, i) (some ⟨o.amount, o.script, hgt, cb⟩))

/-- Modelled from the spec: apply one transaction to the UTXO content
(UpdateCoins, declared at validation.h lines 1401-1402): spend its inputs,
then insert its outputs, returning the undo record. -/
def connectTx (t : Tx) (hgt : Nat) (m : UtxoMap) : Option (UtxoMap × List (OutPoint × Coin)) :=
  match spendInputs t.vin m with
  | none => none
  | some (m1, u) =>
    match addOutputs t.txid hgt t.isCoinbase 0 t.vout m1 with
    | none => none
    | some m2 => some (m2, u)

/-- Apply every transaction of a block in order, collecting per-transaction
undo records. -/
def connectTxs (hgt : Nat) : List Tx → UtxoMap → Option (UtxoMap × List (List (OutPoint × Coin)))
  | [], m => some (m, [])
  | t :: ts, m =>
    match connectTx t hgt m with
    | none => none
    | some (m1, u) =>
      match connectTxs hgt ts m1 with
      | none => none
      | some (m2, us) => some (m2, u :: us)

/-- Modelled from the spec: ConnectBlock (declared at validation.h lines
1521-1522): contextual check that the view is at the parent of the block
being connected, then spend inputs and insert outputs transaction by
transaction, recording undo data; on success the best-block marker moves to
the connected block; any failure leaves no visible state change. -/
def connectBlock (B : Block) (idx : BIndex) (v : CoinsView) :
    Option (CoinsView × List (List (OutPoint × Coin))) :=
  if v.bestBlock = idx.parentHash ∧ B.hashB = idx.hash then
    match connectTxs idx.height B.txs v.utxo with
    | none => none
    | some (m, us) => some ({ utxo := m, bestBlock := idx.hash }, us)
  else none

/-- The view a caller observes after a ConnectBlock call: the connected
view on success, the untouched input view on failure. -/
def viewAfterConnect (B : Block) (idx : BIndex) (v : CoinsView) : CoinsView :=
  match connectBlock B idx v with
  | none => v
  | some (v1, _) => v1

/-- Remove the outputs a transaction created, starting at index i. -/
def removeOutputs (txid : Nat) : Nat → List TxOut → UtxoMap → UtxoMap
  | _, [], m => m
  | i, _ :: os, m => removeOutputs txid (i + 1) os (updMap m (txid, i) none)

/-- Reinstate the archived Coins of an undo record. -/
def restoreInputs (u : List (OutPoint × Coin)) (m : UtxoMap) : UtxoMap :=
  u.foldr (fun pc acc => updMap acc pc.1 (some pc.2)) m

/-- Undo one transaction: remove its created outputs, then reinstate the
exact prior Coin values from its undo record. -/
def disconnectTx (t : Tx) (u : List (OutPoint × Coin)) (m : UtxoMap) : UtxoMap :=
  restoreInputs u (removeOutputs t.txid 0 t.vout m)

/-- Undo a list of transactions in reverse order of connection. -/
def disconnectTxs : List (Tx × List (OutPoint × Coin)) → UtxoMap → UtxoMap
  | [], m => m
  | tu :: rest, m => disconnectTx tu.1 tu.2 (disconnectTxs rest m)

/-- Modelled from the spec: DisconnectBlock (declared at validation.h lines
1511-1515): using the stored undo data, remove the added outputs of the
block and restore its spent inputs with the exact prior Coin values, in
reverse transaction order, and restore the best-block marker to the
parent. -/
def disconnectBlock (B : Block) (idx : BIndex) (undo : List (List (OutPoint × Coin)))
    (v : CoinsView) : Option CoinsView :=
  if v.bestBlock = idx.hash ∧ B.hashB = idx.hash ∧ undo.length = B.txs.length then
    some { utxo := disconnectTxs (B.txs.zip undo) v.utxo, bestBlock := idx.parentHash }
  else none

theorem spendInputs_spec (ins : List TxIn) (m m2 : UtxoMap) (u : List (OutPoint × Coin))
    (h : spendInputs ins m = some (m2, u)) :
    (∀ q, m2 q = if q ∈ ins.map TxIn.prevout then none else m q) ∧
    u.map Prod.fst = ins.map TxIn.prevout ∧
    (∀ pc ∈ u, m pc.1 = some pc.2) ∧
    (ins.map TxIn.prevout).Nodup := by
  induction ins generalizing m m2 u with
  | nil =>
    simp only [spendInputs, Option.some.injEq, Prod.mk.injEq] at h
    obtain ⟨h1, h2⟩ := h
    subst h1; subst h2
    simp
  | cons i is ih =>
    simp only [spendInputs] at h
    cases hm : m i.prevout with
    | none => rw [hm] at h; exact absurd h (by simp)
    | some c =>
      rw [hm] at h
      cases hr : spendInputs is (updMap m i.prevout none) with
      | none => rw [hr] at h; exact absurd h (by simp)
      | some mu =>
        obtain ⟨m1, u1⟩ := mu
        rw [hr] at h
        simp only [Option.some.injEq, Prod.mk.injEq] at h
        obtain ⟨h1, h2⟩ := h
        subst h1; subst h2
        obtain ⟨hpt, hkeys, hvals, hnd⟩ := ih _ _ _ hr
        have hpnotin : i.prevout ∉ is.map TxIn.prevout := by
          intro hmem
          rw [← hkeys] at hmem
          obtain ⟨pc, hpc, hfst⟩ := List.mem_map.mp hmem
          have hv := hvals pc hpc
          rw [hfst] at hv
          simp [updMap] at hv
        refine ⟨?_, ?_, ?_, ?_⟩
        · intro q
          rw [hpt q]
          by_cases h1 : q ∈ List.map TxIn.prevout is
          · simp [h1]
          · by_cases h2 : q = i.prevout
            · simp [updMap, h1, h2]
            · simp [updMap, h1, h2]
        · simp [hkeys]
        · intro pc hpc
          rcases List.mem_cons.mp hpc with hh | ht
          · rw [hh]; exact hm
          · have hv := hvals pc ht
            have hne : pc.1 ≠ i.prevout := by
              intro hEq
              rw [hEq] at hv
              simp [updMap] at hv
            simpa [updMap, hne] using hv
        · exact List.nodup_cons.mpr ⟨hpnotin, hnd⟩

theorem mem_createdKeys (txid : Nat) (outs : List TxOut) (i : Nat) (q : OutPoint)
    (h : q ∈ createdKeys txid i outs) : q.1 = txid ∧ i ≤ q.2 ∧ q.2 < i + outs.length := by
  induction outs generalizing i with
  | nil => simp [createdKeys] at h
  | cons o os ih =>
    simp only [createdKeys, List.mem_cons] at h
    cases h with
    | inl h =>
      rw [h]
      refine ⟨rfl, le_refl i, ?_⟩
      simp only [List.length_cons]
      omega
    | inr h =>
      obtain ⟨h1, h2, h3⟩ := ih (i + 1) h
      refine ⟨h1, by omega, ?_⟩
      simp only [List.length_cons]
      omega

theorem addOutputs_spec (txid hgt : Nat) (cb : Bool) (outs : List TxOut) (i : Nat)
    (m m2 : UtxoMap) (h : addOutputs txid hgt cb i outs m = some m2) :
    (∀ q, q ∉ createdKeys txid i outs → m2 q = m q) ∧
    (∀ q ∈ createdKeys txid i outs, m q = none) := by
  induction outs generalizing i m with
  | nil =>
    simp only [addOutputs, Option.some.injEq] at h
    subst h
    simp [createdKeys]
  | cons o os ih =>
    simp only [addOutputs] at h
    cases hm : m (txid, i) with
    | some c => rw [hm] at h; exact absurd h (by simp)
    | none =>
      rw [hm] at h
      obtain ⟨ha, hb⟩ := ih (i + 1) _ h
      constructor
      · intro q hq
        simp only [createdKeys, List.mem_cons, not_or] at hq
        obtain ⟨hq1, hq2⟩ := hq
        rw [ha q hq2]
        simp [updMap, hq1]
      · intro q hq
        simp only [createdKeys, List.mem_cons] at hq
        cases hq with
        | inl hq => rw [hq]; exact hm
        | inr hq =>
          have hbq := hb q hq
          have hne : q ≠ (txid, i) := by
            intro hEq
            obtain ⟨_, h2, _⟩ := mem_createdKeys txid os (i + 1) q hq
            rw [hEq] at h2
            simp at h2
          simpa [updMap, hne] using hbq

theorem removeOutputs_spec (txid : Nat) (outs : List TxOut) (i : Nat) (m : UtxoMap)
    (q : OutPoint) :
    removeOutputs txid i outs m q = if q ∈ createdKeys txid i outs then none else m q := by
  induction outs generalizing i m with
  | nil => simp [removeOutputs, createdKeys]
  | cons o os ih =>
    simp only [removeOutputs, createdKeys]
    rw [ih]
    by_cases h1 : q ∈ createdKeys txid (i + 1) os
    · simp [h1]
    · by_cases h2 : q = (txid, i)
      · simp [updMap, h1, h2]
      · simp [updMap, h1, h2]

theorem restoreInputs_not_mem (u : List (OutPoint × Coin)) (m : UtxoMap) (q : OutPoint)
    (h : q ∉ u.map Prod.fst) : restoreInputs u m q = m q := by
  induction u with
  | nil => rfl
  | cons pc u ih =>
    simp only [List.map_cons, List.mem_cons, not_or] at h
    show updMap (restoreInputs u m) pc.1 (some pc.2) q = m q
    simp only [updMap, if_neg h.1]
    exact ih h.2

theorem restoreInputs_mem (u : List (OutPoint × Coin)) (m : UtxoMap) (q : OutPoint) (c : Coin)
    (hmem : (q, c) ∈ u) (hnd : (u.map Prod.fst).Nodup) : restoreInputs u m q = some c := by
  induction u with
  | nil => simp at hmem
  | cons pc u ih =>
    simp only [List.map_cons, List.nodup_cons] at hnd
    show updMap (restoreInputs u m) pc.1 (some pc.2) q = some c
    rcases List.mem_cons.mp hmem with hh | ht
    · rw [← hh]
      simp [updMap]
    · have hq : q ≠ pc.1 := by
        intro hEq
        exact hnd.1 (hEq ▸ List.mem_map_of_mem Prod.fst ht)
      simp only [updMap, if_neg hq]
      exact ih ht hnd.2

theorem connectTx_roundtrip (t : Tx) (hgt : Nat) (m m2 : UtxoMap)
    (u : List (OutPoint × Coin)) (h : connectTx t hgt m = some (m2, u)) :
    disconnectTx t u m2 = m := by
  simp only [connectTx] at h
  split at h
  · exact absurd h (by simp)
  · rename_i m1 u1 hs
    split at h
    · exact absurd h (by simp)
    · rename_i mA ha
      simp only [Option.some.injEq, Prod.mk.injEq] at h
      obtain ⟨h1, h2⟩ := h
      rw [h1] at ha
      rw [h2] at hs
      obtain ⟨hpt, hkeys, hvals, hnd⟩ := spendInputs_spec t.vin m m1 u hs
      obtain ⟨ha1, ha2⟩ := addOutputs_spec t.txid hgt t.isCoinbase t.vout 0 m1 m2 ha
      funext q
      show restoreInputs u (removeOutputs t.txid 0 t.vout m2) q = m q
      have hndu : (u.map Prod.fst).Nodup := by rw [hkeys]; exact hnd
      by_cases hq : q ∈ u.map Prod.fst
      · obtain ⟨pc, hpc, hfst⟩ := List.mem_map.mp hq
        have hre : restoreInputs u (removeOutputs t.txid 0 t.vout m2) q = some pc.2 := by
          have := restoreInputs_mem u (removeOutputs t.txid 0 t.vout m2) pc.1 pc.2 hpc hndu
          rw [← hfst]
          exact this
        rw [hre]
        have hv := hvals pc hpc
        rw [hfst] at hv
        exact hv.symm
      · rw [restoreInputs_not_mem _ _ _ hq, removeOutputs_spec]
        have hqspent : q ∉ t.vin.map TxIn.prevout := by rw [← hkeys]; exact hq
        by_cases hc : q ∈ createdKeys t.txid 0 t.vout
        · simp only [hc, if_true]
          have hm1 := ha2 q hc
          have hptq := hpt q
          rw [if_neg hqspent] at hptq
          rw [← hptq, hm1]
        · simp only [hc, if_false]
          rw [ha1 q hc]
          have hptq := hpt q
          rw [if_neg hqspent] at hptq
          exact hptq

theorem connectTx_preserves_none (t : Tx) (hgt : Nat) (m m2 : UtxoMap)
    (u : List (OutPoint × Coin)) (h : connectTx t hgt m = some (m2, u)) (q : OutPoint)
    (hq : q ∉ createdKeysOfTx t) (hnone : m q = none) : m2 q = none := by
  simp only [connectTx] at h
  split at h
  · exact absurd h (by simp)
  · rename_i m1 u1 hs
    split at h
    · exact absurd h (by simp)
    · rename_i mA ha
      simp only [Option.some.injEq, Prod.mk.injEq] at h
      obtain ⟨h1, h2⟩ := h
      rw [h1] at ha
      rw [h2] at hs
      obtain ⟨hpt, _, _, _⟩ := spendInputs_spec t.vin m m1 u hs
      obtain ⟨ha1, _⟩ := addOutputs_spec t.txid hgt t.isCoinbase t.vout 0 m1 m2 ha
      rw [ha1 q hq, hpt q]
      by_cases hsp : q ∈ t.vin.map TxIn.prevout
      · simp [hsp]
      · simp [hsp, hnone]

theorem connectTxs_spec (hgt : Nat) (ts : List Tx) (m m2 : UtxoMap)
    (us : List (List (OutPoint × Coin))) (h : connectTxs hgt ts m = some (m2, us)) :
    us.length = ts.length ∧ disconnectTxs (ts.zip us) m2 = m := by
  induction ts generalizing m us with
  | nil =>
    simp only [connectTxs, Option.some.injEq, Prod.mk.injEq] at h
    obtain ⟨h1, h2⟩ := h
    subst h1; subst h2
    exact ⟨rfl, rfl⟩
  | cons t ts ih =>
    simp only [connectTxs] at h
    split at h
    · exact absurd h (by simp)
    · rename_i m1 u hc
      split at h
      · exact absurd h (by simp)
      · rename_i mF us1 hr
        simp only [Option.some.injEq, Prod.mk.injEq] at h
        obtain ⟨h1, h2⟩ := h
        rw [h1] at hr
        rw [← h2]
        obtain ⟨hl, hd⟩ := ih _ _ hr
        refine ⟨by simp [hl], ?_⟩
        show disconnectTx t u (disconnectTxs (ts.zip us1) m2) = m
        rw [hd]
        exact connectTx_roundtrip t hgt m m1 u hc

/-- C1: for every block and view, if ConnectBlock succeeds then
DisconnectBlock with the recorded undo data returns a view bit-identical to
the view before the connect: every spent Coin is reinstated with its exact
prior value, every created output is removed, and the best-block marker is
restored to the parent of the block. -/
theorem connectBlock_disconnectBlock_roundtrip (B : Block) (idx : BIndex) (v v1 : CoinsView)
    (undo : List (List (OutPoint × Coin))) (h : connectBlock B idx v = some (v1, undo)) :
    disconnectBlock B idx undo v1 = some v := by
  simp only [connectBlock] at h
  split at h
  · rename_i hcond
    split at h
    · exact absurd h (by simp)
    · rename_i mF us hc
      simp only [Option.some.injEq, Prod.mk.injEq] at h
      obtain ⟨h1, h2⟩ := h
      rw [h2] at hc
      obtain ⟨hl, hd⟩ := connectTxs_spec idx.height B.txs v.utxo mF undo hc
      have hv1 : v1 = { utxo := mF, bestBlock := idx.hash } := h1.symm
      subst hv1
      simp only [disconnectBlock]
      split
      · congr 1
        exact CoinsView.ext hd hcond.1.symm
      · rename_i hcnd
        exact absurd ⟨by trivial, hcond.2, hl⟩ hcnd
  · exact absurd h (by simp)

/-- A concrete coin, view, transaction, block and index entry used by the
concrete witnesses below. -/
def coinA : Coin := ⟨50, 7, 1, false⟩

def viewA : CoinsView := ⟨fun q => if q = ((1 : Nat), (0 : Nat)) then some coinA else none, 100⟩

def txB : Tx := ⟨2, [⟨(1, 0), RelLock.unlocked⟩], [⟨49, 8⟩], false⟩

def blockB : Block := ⟨200, [txB]⟩

def idxB : BIndex := ⟨200, 100, 5⟩

/-- C1 witness: connecting then disconnecting a concrete one-transaction
block restores the concrete view exactly. -/
theorem connectBlock_disconnectBlock_roundtrip_witness :
    ∃ p : CoinsView × List (List (OutPoint × Coin)),
      connectBlock blockB idxB viewA = some p ∧
      disconnectBlock blockB idxB p.2 p.1 = some viewA := by
  obtain ⟨p, hp⟩ : ∃ p, connectBlock blockB idxB viewA = some p := ⟨_, rfl⟩
  exact ⟨p, hp, connectBlock_disconnectBlock_roundtrip blockB idxB viewA p.1 p.2 (by rw [hp])⟩

theorem spendInputs_missing (ins : List TxIn) (m : UtxoMap) (i : TxIn) (hi : i ∈ ins)
    (h : m i.prevout = none) : spendInputs ins m = none := by
  induction ins generalizing m with
  | nil => simp at hi
  | cons j js ih =>
    rcases List.mem_cons.mp hi with hh | ht
    · subst hh
      simp only [spendInputs, h]
    · simp only [spendInputs]
      cases hm : m j.prevout with
      | none => rfl
      | some c =>
        have hstill : updMap m j.prevout none i.prevout = none := by
          simp only [updMap]
          split_ifs <;> simp [h]
        rw [ih _ ht hstill]

theorem spendInputs_none_of_dup (ins : List TxIn) (m : UtxoMap)
    (h : ¬ (ins.map TxIn.prevout).Nodup) : spendInputs ins m = none := by
  cases hs : spendInputs ins m with
  | none => rfl
  | some mu =>
    obtain ⟨m2, u⟩ := mu
    obtain ⟨_, _, _, hnd⟩ := spendInputs_spec ins m m2 u hs
    exact absurd hnd h

theorem connectTxs_missing_input (hgt : Nat) (ts : List Tx) (m : UtxoMap) (t : Tx)
    (ht : t ∈ ts) (i : TxIn) (hi : i ∈ t.vin) (hnone : m i.prevout = none)
    (hnc : ∀ t2 ∈ ts, i.prevout ∉ createdKeysOfTx t2) :
    connectTxs hgt ts m = none := by
  induction ts generalizing m with
  | nil => simp at ht
  | cons t0 ts ih =>
    rcases List.mem_cons.mp ht with hh | htl
    · subst hh
      have hfail : connectTx t hgt m = none := by
        simp only [connectTx, spendInputs_missing t.vin m i hi hnone]
      simp only [connectTxs, hfail]
    · simp only [connectTxs]
      cases hc : connectTx t0 hgt m with
      | none => rfl
      | some mu =>
        obtain ⟨m1, u⟩ := mu
        have hstill : m1 i.prevout = none :=
          connectTx_preserves_none t0 hgt m m1 u hc i.prevout
            (hnc t0 (List.mem_cons_self t0 ts)) hnone
        dsimp only
        rw [ih _ htl hstill (fun t2 h2 => hnc t2 (List.mem_cons_of_mem t0 h2))]

theorem connectTxs_dup_input (hgt : Nat) (ts : List Tx) (m : UtxoMap) (t : Tx)
    (ht : t ∈ ts) (hdup : ¬ (t.vin.map TxIn.prevout).Nodup) :
    connectTxs hgt ts m = none := by
  induction ts generalizing m with
  | nil => simp at ht
  | cons t0 ts ih =>
    rcases List.mem_cons.mp ht with hh | htl
    · subst hh
      have hfail : connectTx t hgt m = none := by
        simp only [connectTx, spendInputs_none_of_dup t.vin m hdup]
      simp only [connectTxs, hfail]
    · simp only [connectTxs]
      cases hc : connectTx t0 hgt m with
      | none => rfl
      | some mu =>
        obtain ⟨m1, u⟩ := mu
        dsimp only
        rw [ih _ htl]

/-- C2: ConnectBlock is atomic.  On any failure the caller observes the
untouched input view; and a transaction referencing an input that does not
currently exist in the view — an input unknown to the view and not created
by any transaction of the block, or a double-spend inside one transaction —
makes the whole operation fail with no visible state change. -/
theorem connectBlock_atomic (B : Block) (idx : BIndex) (v : CoinsView) :
    (connectBlock B idx v = none → viewAfterConnect B idx v = v) ∧
    (∀ t ∈ B.txs, ∀ i ∈ t.vin, v.utxo i.prevout = none →
      (∀ t2 ∈ B.txs, i.prevout ∉ createdKeysOfTx t2) →
      connectBlock B idx v = none ∧ viewAfterConnect B idx v = v) ∧
    (∀ t ∈ B.txs, ¬ (t.vin.map TxIn.prevout).Nodup →
      connectBlock B idx v = none ∧ viewAfterConnect B idx v = v) := by
  refine ⟨?_, ?_, ?_⟩
  · intro h
    simp [viewAfterConnect, h]
  · intro t ht i hi hnone hnc
    have hfail : connectBlock B idx v = none := by
      simp only [connectBlock]
      split
      · rw [connectTxs_missing_input idx.height B.txs v.utxo t ht i hi hnone hnc]
      · rfl
    exact ⟨hfail, by simp [viewAfterConnect, hfail]⟩
  · intro t ht hdup
    have hfail : connectBlock B idx v = none := by
      simp only [connectBlock]
      split
      · rw [connectTxs_dup_input idx.height B.txs v.utxo t ht hdup]
      · rfl
    exact ⟨hfail, by simp [viewAfterConnect, hfail]⟩

/-- A transaction spending an outpoint unknown to viewA. -/
def txMissing : Tx := ⟨3, [⟨(9, 9), RelLock.unlocked⟩], [⟨1, 8⟩], false⟩

def blockM : Block := ⟨201, [txMissing]⟩

def idxM : BIndex := ⟨201, 100, 5⟩

/-- C2 witness: a concrete block spending an unknown input fails to connect
and leaves the concrete view untouched. -/
theorem connectBlock_atomic_witness :
    connectBlock blockM idxM viewA = none ∧ viewAfterConnect blockM idxM viewA = viewA := by
  have h := connectBlock_atomic blockM idxM viewA
  exact h.2.1 txMissing (by simp [blockM]) ⟨(9, 9), RelLock.unlocked⟩
    (by simp [txMissing]) rfl (by decide)

/-! ## BIP68 sequence locks

The bodies of SequenceLocks and CheckSequenceLocks are not part of
src/validation.h (declarations at lines 1443-1460); the definitions below
are modelled from section 4.3 of the design document: per-input relative
locks evaluated against the height/time of the block that confirmed each
input, with the tightest constraint across all inputs winning. -/

/-- One input as SequenceLocks consumes it: its encoded relative-lock
requirement together with the height and the time anchor of the block that
confirmed the referenced output (the declaration comment at validation.h
line 1445 states that the confirmation heights of the inputs are passed in
alongside the transaction). -/
structure SeqLockInput where
  lock : RelLock
  prevHeight : Nat
  prevTime : Nat
deriving DecidableEq, Repr

/-- Modelled from the spec: tightest-constraint accumulation — the minimal
height and minimal time the including block must reach, maximised over all
inputs. -/
def calcSequenceLocks (ins : List SeqLockInput) : Nat × Nat :=
  ins.foldl (fun acc i =>
    match i.lock with
    | RelLock.unlocked => acc
    | RelLock.blocks n => (max acc.1 (i.prevHeight + n), acc.2)
    | RelLock.time t => (acc.1, max acc.2 (i.prevTime + t))) (0, 0)

/-- Modelled from the spec: evaluate the accumulated lock pair against the
height and median-time-past of the block the transaction would enter. -/
def evaluateSequenceLocks (lockPair : Nat × Nat) (evalHeight evalMTP : Nat) : Bool :=
  decide (lockPair.1 ≤ evalHeight) && decide (lockPair.2 ≤ evalMTP)

/-- Modelled from the spec: SequenceLocks — the transaction is BIP68-final
for a block at the given height and median-time-past. -/
def sequenceLocks (ins : List SeqLockInput) (evalHeight evalMTP : Nat) : Bool :=
  evaluateSequenceLocks (calcSequenceLocks ins) evalHeight evalMTP

/-- The per-input finality condition the specification states: both the
confirmations elapsed and the time elapsed since the confirming block of
this input satisfy its encoded requirement. -/
def inputLockFinal (i : SeqLockInput) (evalHeight evalMTP : Nat) : Bool :=
  match i.lock with
  | RelLock.unlocked => true
  | RelLock.blocks n => decide (i.prevHeight + n ≤ evalHeight)
  | RelLock.time t => decide (i.prevTime + t ≤ evalMTP)

theorem calcSequenceLocks_go (ins : List SeqLockInput) (acc : Nat × Nat)
    (evalHeight evalMTP : Nat) :
    evaluateSequenceLocks (ins.foldl (fun acc i =>
      match i.lock with
      | RelLock.unlocked => acc
      | RelLock.blocks n => (max acc.1 (i.prevHeight + n), acc.2)
      | RelLock.time t => (acc.1, max acc.2 (i.prevTime + t))) acc) evalHeight evalMTP = true ↔
    (evaluateSequenceLocks acc evalHeight evalMTP = true ∧
      ∀ i ∈ ins, inputLockFinal i evalHeight evalMTP = true) := by
  induction ins generalizing acc with
  | nil => simp
  | cons i ins ih =>
    simp only [List.foldl_cons, List.mem_cons]
    rw [ih]
    cases hl : i.lock with
    | unlocked =>
      constructor
      · rintro ⟨h1, h2⟩
        exact ⟨h1, fun j hj => by
          rcases hj with hj | hj
          · subst hj; simp [inputLockFinal, hl]
          · exact h2 j hj⟩
      · rintro ⟨h1, h2⟩
        exact ⟨h1, fun j hj => h2 j (Or.inr hj)⟩
    | blocks n =>
      simp only [evaluateSequenceLocks, Bool.and_eq_true, decide_eq_true_eq]
      constructor
      · rintro ⟨⟨h1, h2⟩, h3⟩
        rw [Nat.max_le] at h1
        refine ⟨⟨h1.1, h2⟩, fun j hj => ?_⟩
        rcases hj with hj | hj
        · subst hj; simp [inputLockFinal, hl, h1.2]
        · exact h3 j hj
      · rintro ⟨⟨h1, h2⟩, h3⟩
        have hi := h3 i (Or.inl rfl)
        simp only [inputLockFinal, hl, decide_eq_true_eq] at hi
        exact ⟨⟨Nat.max_le.mpr ⟨h1, hi⟩, h2⟩, fun j hj => h3 j (Or.inr hj)⟩
    | time t =>
      simp only [evaluateSequenceLocks, Bool.and_eq_true, decide_eq_true_eq]
      constructor
      · rintro ⟨⟨h1, h2⟩, h3⟩
        rw [Nat.max_le] at h2
        refine ⟨⟨h1, h2.1⟩, fun j hj => ?_⟩
        rcases hj with hj | hj
        · subst hj; simp [inputLockFinal, hl, h2.2]
        · exact h3 j hj
      · rintro ⟨⟨h1, h2⟩, h3⟩
        have hi := h3 i (Or.inl rfl)
        simp only [inputLockFinal, hl, decide_eq_true_eq] at hi
        exact ⟨⟨h1, Nat.max_le.mpr ⟨h2, hi⟩⟩, fun j hj => h3 j (Or.inr hj)⟩

/-- C4: SequenceLocks judges a transaction final exactly when every input
satisfies its own relative-lock requirement measured from the block that
confirmed that input (the tightest constraint over all inputs wins), and at
the exact boundary an input with a 2-confirmation relative lock is
non-final when confirmed 1 block ago and final once confirmed 2 blocks
ago. -/
theorem sequenceLocks_final_iff (ins : List SeqLockInput) (evalHeight evalMTP : Nat) :
    (sequenceLocks ins evalHeight evalMTP = true ↔
      ∀ i ∈ ins, inputLockFinal i evalHeight evalMTP = true) ∧
    (∀ h t, sequenceLocks [⟨RelLock.blocks 2, h, t⟩] (h + 1) evalMTP = false) ∧
    (∀ h t, sequenceLocks [⟨RelLock.blocks 2, h, t⟩] (h + 2) evalMTP = true) := by
  refine ⟨?_, ?_, ?_⟩
  · have h := calcSequenceLocks_go ins (0, 0) evalHeight evalMTP
    simp only [sequenceLocks, calcSequenceLocks]
    rw [h]
    simp [evaluateSequenceLocks]
  · intro h t
    simp only [sequenceLocks, calcSequenceLocks, evaluateSequenceLocks, List.foldl_cons,
      List.foldl_nil]
    simp only [Nat.max_def]
    simp only [Bool.and_eq_true, decide_eq_true_eq, Bool.eq_false_iff, ne_eq, not_and]
    intro hc
    split_ifs at hc <;> omega
  · intro h t
    simp only [sequenceLocks, calcSequenceLocks, evaluateSequenceLocks, List.foldl_cons,
      List.foldl_nil]
    simp only [Nat.max_def]
    split_ifs <;> simp

/-! ## Signature cache and script verification

The body of CScriptCheck::operator() and of CheckInputs is not part of
src/validation.h (the class declaration is at lines 1462-1494, CheckInputs
at 1393-1399); the cache behaviour below is modelled from section 4.2 of
the design document: a lookup keyed by (transaction id, input index,
script, flags), used as a memoized-valid optimisation in which a cache hit
short-circuits the check to valid. -/

/-- The signature-cache key. -/
structure SigCacheKey where
  txid : Nat
  nIn : Nat
  script : Nat
  flags : Nat
deriving DecidableEq, Repr

/-- Modelled from the spec: the uncached script check — a pure function of
the key; the ground-truth verifier is a parameter. -/
def uncachedCheck (ver : SigCacheKey → Bool) (k : SigCacheKey) : Bool := ver k

/-- Modelled from the spec: the cached script check — a cache hit
short-circuits to valid without re-running the verifier; a miss runs it. -/
def cachedCheck (ver : SigCacheKey → Bool) (cache : List SigCacheKey) (k : SigCacheKey) : Bool :=
  if k ∈ cache then true else ver k

/-- Storing a verified result, as CheckInputs does when cacheStore is set:
only keys whose check succeeded enter the cache. -/
def storeResult (ver : SigCacheKey → Bool) (cache : List SigCacheKey) (k : SigCacheKey) :
    List SigCacheKey :=
  if uncachedCheck ver k then k :: cache else cache

/-- A verifier rejecting everything, and a key, refuting the universal form
of the cache claim. -/
def verNone : SigCacheKey → Bool := fun _ => false

def keyK : SigCacheKey := ⟨1, 0, 2, 3⟩

/-- C5 counterexample: with an arbitrary (corrupted) cache containing a key
the real verifier rejects, the cached check accepts an input the uncached
check rejects — so the claim does not hold for every cache content. -/
theorem cachedCheck_counterexample :
    cachedCheck verNone [keyK] keyK = true ∧ uncachedCheck verNone keyK = false := by
  constructor <;> decide

/-- C5 (amended): for every cache whose entries all pass the real verifier
— and the system only ever stores keys whose check succeeded, which
preserves that property — every input the cached verifier accepts is also
accepted by uncached verification, so a sound cache can only save
re-checking, never cause false acceptance. -/
theorem cachedCheck_sound (ver : SigCacheKey → Bool) (cache : List SigCacheKey)
    (hs : ∀ k ∈ cache, ver k = true) :
    (∀ k, cachedCheck ver cache k = true → uncachedCheck ver k = true) ∧
    (∀ k, ∀ k2 ∈ storeResult ver cache k, ver k2 = true) := by
  constructor
  · intro k hk
    simp only [cachedCheck] at hk
    split_ifs at hk with hmem
    · exact hs k hmem
    · exact hk
  · intro k k2 hk2
    simp only [storeResult] at hk2
    split_ifs at hk2 with hv
    · rcases List.mem_cons.mp hk2 with hh | ht
      · rw [hh]; exact hv
      · exact hs k2 ht
    · exact hs k2 hk2

/-- C5 witness: a concrete sound cache only re-validates what the verifier
itself accepts. -/
theorem cachedCheck_sound_witness :
    cachedCheck (fun k => k.txid == 1) [keyK] keyK = true ∧
    uncachedCheck (fun k => k.txid == 1) keyK = true := by
  have h := cachedCheck_sound (fun k => k.txid == 1) [keyK] (by decide)
  exact ⟨by decide, h.1 keyK (by decide)⟩

/-! ## Mempool admission

The body of AcceptToMemoryPool is not part of src/validation.h (declaration
at lines 321-323); the pipeline below is modelled from section 4.5 of the
design document: context-free validation, already-known rejection,
contextual validation against the tip view layered with the pending
outputs of the mempool, fee and resource-bound policy checks, script
verification, and only then insertion — with fDryRun performing every
check without mutating mempool state, and missing inputs reported as a
distinguished outcome rather than a hard failure. -/

/-- The outcome kind of one admission attempt.  The missingInputs
constructor models the pfMissingInputs out-parameter of AcceptToMemoryPool
being set instead of a rejection being recorded. -/
inductive ATMPResult
  | accepted
  | rejected (code : Nat)
  | missingInputs
deriving DecidableEq, Repr

/-- Result of an AcceptToMemoryPool call: the outcome, the mempool
afterwards, and the durable chain view afterwards. -/
structure ATMPOutcome where
  res : ATMPResult
  pool : List Tx
  view : CoinsView

/-- The sentinel height given to unconfirmed coins, as in the mempool
layering of the view. -/
def MEMPOOL_HEIGHT : Nat := 2147483647

/-- An output created by a pending mempool transaction. -/
def poolCreated (pool : List Tx) (p : OutPoint) : Option Coin :=
  match pool.find? (fun t => t.txid == p.1) with
  | none => none
  | some t =>
    match t.vout[p.2]? with
    | none => none
    | some o => some ⟨o.amount, o.script, MEMPOOL_HEIGHT, false⟩

/-- Modelled from the spec: the tip view layered with the pending outputs
of the mempool, so chained unconfirmed spends validate. -/
def layeredLookup (pool : List Tx) (v : CoinsView) (p : OutPoint) : Option Coin :=
  match poolCreated pool p with
  | some c => some c
  | none => v.utxo p

/-- An outpoint already spent by a pending mempool transaction (a
conflict; replacement is opt-in and DEFAULT_ENABLE_REPLACEMENT is false at
validation.h line 137). -/
def spentByPool (pool : List Tx) (p : OutPoint) : Bool :=
  pool.any (fun t => t.vin.any (fun i => decide (i.prevout = p)))

/-- The maximum money constant used by the context-free value-range check. -/
def MAX_MONEY : Int := 2100000000000000

/-- Modelled from the spec: context-free checks of CheckTransaction
(declared at validation.h line 1421): nonempty inputs and outputs, no
duplicate inputs, output values in range. -/
def checkTransaction (t : Tx) : Bool :=
  decide (t.vin ≠ []) && decide (t.vout ≠ []) &&
  decide ((t.vin.map TxIn.prevout).Nodup) &&
  t.vout.all (fun o => decide (0 ≤ o.amount) && decide (o.amount ≤ MAX_MONEY))

/-- Fee of a transaction against the layered view: resolved input value
minus output value. -/
def txFee (pool : List Tx) (v : CoinsView) (t : Tx) : Int :=
  (t.vin.map (fun i =>
    match layeredLookup pool v i.prevout with
    | some c => c.amount
    | none => 0)).sum - (t.vout.map TxOut.amount).sum

/-- The minimum relay fee (DEFAULT_LEGACY_MIN_RELAY_TX_FEE, validation.h
line 67). -/
def minRelayTxFee : Int := 10000

/-- The absurd-fee threshold used when fRejectAbsurdFee is set. -/
def absurdFeeThreshold : Int := 10000000

/-- The ancestor-count ceiling (DEFAULT_ANCESTOR_LIMIT, validation.h line
72); the model counts direct in-pool parents, which is all the claims
settled here depend on. -/
def ancestorLimit : Nat := 25

/-- Direct in-pool parents of a transaction. -/
def directParents (pool : List Tx) (t : Tx) : Nat :=
  (pool.filter (fun p => t.vin.any (fun i => decide (i.prevout.1 = p.txid)))).length

/-- Modelled from the spec: AcceptToMemoryPool (declared at validation.h
lines 321-323).  The pipeline runs every check in order; fDryRun only
suppresses the final insertion; the durable chain view is never written. -/
def acceptToMemoryPool (ver : Tx → Nat → Bool) (pool : List Tx) (v : CoinsView) (t : Tx)
    (fLimitFree fOverrideMempoolLimit fRejectAbsurdFee fDryRun : Bool) : ATMPOutcome :=
  if checkTransaction t = false then ⟨ATMPResult.rejected 0, pool, v⟩
  else if t ∈ pool then ⟨ATMPResult.rejected 1, pool, v⟩
  else if (createdKeysOfTx t).any (fun p => (v.utxo p).isSome) then ⟨ATMPResult.rejected 2, pool, v⟩
  else if t.vin.any (fun i => spentByPool pool i.prevout) then ⟨ATMPResult.rejected 3, pool, v⟩
  else if t.vin.any (fun i => (layeredLookup pool v i.prevout).isNone) then
    ⟨ATMPResult.missingInputs, pool, v⟩
  else if fLimitFree && decide (txFee pool v t < minRelayTxFee) then ⟨ATMPResult.rejected 4, pool, v⟩
  else if fRejectAbsurdFee && decide (absurdFeeThreshold < txFee pool v t) then
    ⟨ATMPResult.rejected 5, pool, v⟩
  else if !fOverrideMempoolLimit && decide (ancestorLimit < directParents pool t) then
    ⟨ATMPResult.rejected 6, pool, v⟩
  else if !(List.range t.vin.length).all (fun j => ver t j) then ⟨ATMPResult.rejected 7, pool, v⟩
  else ⟨ATMPResult.accepted, if fDryRun then pool else pool ++ [t], v⟩

/-- C3: a dry-run admission performs all checks — it returns the same
outcome as the mutating run under the same policy flags — but leaves the
mempool and the durable chain view unchanged, whether it accepts or
rejects. -/
theorem acceptToMemoryPool_dryRun_frame (ver : Tx → Nat → Bool) (pool : List Tx)
    (v : CoinsView) (t : Tx) (f1 f2 f3 : Bool) :
    (acceptToMemoryPool ver pool v t f1 f2 f3 true).pool = pool ∧
    (acceptToMemoryPool ver pool v t f1 f2 f3 true).view = v ∧
    (acceptToMemoryPool ver pool v t f1 f2 f3 true).res =
      (acceptToMemoryPool ver pool v t f1 f2 f3 false).res := by
  unfold acceptToMemoryPool
  by_cases h1 : checkTransaction t = false
  · simp [h1]
  · simp only [if_neg h1]
    by_cases h2 : t ∈ pool
    · simp [h2]
    · simp only [if_neg h2]
      by_cases h3 : ((createdKeysOfTx t).any fun p => (v.utxo p).isSome) = true
      · simp [h3]
      · simp only [if_neg h3]
        by_cases h4 : (t.vin.any fun i => spentByPool pool i.prevout) = true
        · simp [h4]
        · simp only [if_neg h4]
          by_cases h5 : (t.vin.any fun i => (layeredLookup pool v i.prevout).isNone) = true
          · simp [h5]
          · simp only [if_neg h5]
            by_cases h6 : (f1 && decide (txFee pool v t < minRelayTxFee)) = true
            · simp [h6]
            · simp only [if_neg h6]
              by_cases h7 : (f3 && decide (absurdFeeThreshold < txFee pool v t)) = true
              · simp [h7]
              · simp only [if_neg h7]
                by_cases h8 : (!f2 && decide (ancestorLimit < directParents pool t)) = true
                · simp [h8]
                · simp only [if_neg h8]
                  by_cases h9 : (!(List.range t.vin.length).all fun j => ver t j) = true
                  · simp [h9]
                  · simp only [if_neg h9]
                    simp

/-- C8: when the transaction passes context-free checks, is not already
known, does not conflict with the pool, and references an input that is in
neither the view nor the pending outputs of the pool, admission reports
the distinguished missing-inputs outcome — not a rejection — and the
mempool is left unchanged, so the caller can hold the transaction as an
orphan; no permanent-invalidity mark exists for this outcome. -/
theorem acceptToMemoryPool_missingInputs (ver : Tx → Nat → Bool) (pool : List Tx)
    (v : CoinsView) (t : Tx) (f1 f2 f3 f4 : Bool)
    (h1 : checkTransaction t = true)
    (h2 : t ∉ pool)
    (h3 : (createdKeysOfTx t).any (fun p => (v.utxo p).isSome) = false)
    (h4 : t.vin.any (fun i => spentByPool pool i.prevout) = false)
    (h5 : t.vin.any (fun i => (layeredLookup pool v i.prevout).isNone) = true) :
    (acceptToMemoryPool ver pool v t f1 f2 f3 f4).res = ATMPResult.missingInputs ∧
    (acceptToMemoryPool ver pool v t f1 f2 f3 f4).res ≠ ATMPResult.rejected 0 ∧
    (∀ c, (acceptToMemoryPool ver pool v t f1 f2 f3 f4).res ≠ ATMPResult.rejected c) ∧
    (acceptToMemoryPool ver pool v t f1 f2 f3 f4).pool = pool := by
  have hres : acceptToMemoryPool ver pool v t f1 f2 f3 f4 =
      ⟨ATMPResult.missingInputs, pool, v⟩ := by
    unfold acceptToMemoryPool
    rw [if_neg (by rw [h1]; simp), if_neg h2, if_neg (by rw [h3]; simp),
      if_neg (by rw [h4]; simp), if_pos h5]
  rw [hres]
  exact ⟨rfl, by simp, fun c => by simp, rfl⟩

/-- C8 witness: a concrete transaction spending an unknown outpoint gets
the missing-inputs outcome against an empty pool and the concrete view. -/
theorem acceptToMemoryPool_missingInputs_witness :
    (acceptToMemoryPool (fun _ _ => true) [] viewA txMissing false false false false).res =
      ATMPResult.missingInputs ∧
    (∀ c, (acceptToMemoryPool (fun _ _ => true) [] viewA txMissing false false false false).res ≠
      ATMPResult.rejected c) ∧
    (acceptToMemoryPool (fun _ _ => true) [] viewA txMissing false false false false).pool = [] := by
  have h := acceptToMemoryPool_missingInputs (fun _ _ => true) [] viewA txMissing
    false false false false (by decide) (by simp) (by decide) (by decide) rfl
  exact ⟨h.1, h.2.2.1, h.2.2.2⟩

/-! ## The block-index map

mapBlockIndex and InsertBlockIndex are declared at validation.h lines
150-151 and 314-315 without bodies; the arena-with-parent-keys model below
follows section 3 and design note 1 of the design document: entries are
inserted only under a present parent, with height and cumulative work
derived from the parent. -/

/-- One entry of the block-index map. -/
structure BlockIndexEntry where
  hash : Nat
  parent : Nat
  height : Nat
  work : Nat
deriving DecidableEq, Repr

/-- Lookup by hash. -/
def lookupEntry (m : List BlockIndexEntry) (h : Nat) : Option BlockIndexEntry :=
  m.find? (fun e => e.hash == h)

/-- Modelled from the spec: InsertBlockIndex / AcceptHeader tree insertion
(declared at validation.h lines 314-315): a new entry is added only when
its hash is not yet present and its parent is; its height is the parent
height plus one and its cumulative work the parent work plus the work of
the new header. -/
def insertBlockIndex (m : List BlockIndexEntry) (h p w : Nat) : List BlockIndexEntry :=
  match lookupEntry m h, lookupEntry m p with
  | none, some pe => ⟨h, p, pe.height + 1, pe.work + w⟩ :: m
  | _, _ => m

/-- The genesis entry: height zero, parent key equal to its own hash. -/
def genesisEntry (g : Nat) : BlockIndexEntry := ⟨g, g, 0, 0⟩

/-- The map holding only genesis. -/
def initialBlockMap (g : Nat) : List BlockIndexEntry := [genesisEntry g]

/-- A sequence of insertions applied in order; each element carries
(hash, parent hash, header work). -/
def applyInserts (m : List BlockIndexEntry) (ops : List (Nat × Nat × Nat)) :
    List BlockIndexEntry :=
  ops.foldl (fun acc op => insertBlockIndex acc op.1 op.2.1 op.2.2) m

/-- The stated invariant: every entry except genesis has a parent entry
present in the map, its height is the parent height plus one, and its work
is at least the parent work. -/
def mapInvariant (g : Nat) (m : List BlockIndexEntry) : Prop :=
  ∀ e ∈ m, e.hash ≠ g →
    ∃ pe ∈ m, pe.hash = e.parent ∧ e.height = pe.height + 1 ∧ pe.work ≤ e.work

/-- The strengthened reachability invariant carried through insertions. -/
def mapReachInv (g : Nat) (m : List BlockIndexEntry) : Prop :=
  (m.map BlockIndexEntry.hash).Nodup ∧
  genesisEntry g ∈ m ∧
  (∀ e ∈ m, e.hash = g → e = genesisEntry g) ∧
  mapInvariant g m

/-- The k-th ancestor of an entry, following parent keys through the map. -/
def ancestorEntry (m : List BlockIndexEntry) (e : BlockIndexEntry) :
    Nat → Option BlockIndexEntry
  | 0 => some e
  | k + 1 =>
    match lookupEntry m e.parent with
    | none => none
    | some pe => ancestorEntry m pe k

theorem lookupEntry_mem (m : List BlockIndexEntry) (h : Nat) (e : BlockIndexEntry)
    (he : lookupEntry m h = some e) : e ∈ m ∧ e.hash = h := by
  have hm := List.mem_of_find?_eq_some he
  have hp := List.find?_some he
  simp only [beq_iff_eq] at hp
  exact ⟨hm, hp⟩

theorem lookupEntry_none (m : List BlockIndexEntry) (h : Nat)
    (he : lookupEntry m h = none) : ∀ e ∈ m, e.hash ≠ h := by
  intro e hem
  have := List.find?_eq_none.mp he e hem
  simpa using this

theorem mem_hash_unique (m : List BlockIndexEntry)
    (hnd : (m.map BlockIndexEntry.hash).Nodup) (a b : BlockIndexEntry)
    (ha : a ∈ m) (hb : b ∈ m) (hh : a.hash = b.hash) : a = b := by
  induction m with
  | nil => simp at ha
  | cons x xs ih =>
    simp only [List.map_cons, List.nodup_cons] at hnd
    rcases List.mem_cons.mp ha with ha1 | ha2 <;> rcases List.mem_cons.mp hb with hb1 | hb2
    · rw [ha1, hb1]
    · exfalso
      apply hnd.1
      rw [ha1] at hh
      rw [hh]
      exact List.mem_map_of_mem BlockIndexEntry.hash hb2
    · exfalso
      apply hnd.1
      rw [hb1] at hh
      rw [← hh]
      exact List.mem_map_of_mem BlockIndexEntry.hash ha2
    · exact ih hnd.2 ha2 hb2

theorem mapReachInv_insert (g : Nat) (m : List BlockIndexEntry) (h p w : Nat)
    (hi : mapReachInv g m) : mapReachInv g (insertBlockIndex m h p w) := by
  obtain ⟨hnd, hgen, hgchar, hinv⟩ := hi
  unfold insertBlockIndex
  cases hlh : lookupEntry m h with
  | some e => exact ⟨hnd, hgen, hgchar, hinv⟩
  | none =>
    cases hlp : lookupEntry m p with
    | none => exact ⟨hnd, hgen, hgchar, hinv⟩
    | some pe =>
      have hnew : ∀ e ∈ m, e.hash ≠ h := lookupEntry_none m h hlh
      obtain ⟨hpm, hph⟩ := lookupEntry_mem m p pe hlp
      have hhg : h ≠ g := by
        intro hEq
        exact hnew (genesisEntry g) hgen (by simp [genesisEntry, hEq])
      refine ⟨?_, List.mem_cons_of_mem _ hgen, ?_, ?_⟩
      · simp only [List.map_cons, List.nodup_cons]
        refine ⟨?_, hnd⟩
        intro hmem
        obtain ⟨e, hem, heh⟩ := List.mem_map.mp hmem
        exact hnew e hem heh
      · intro e hem heq
        rcases List.mem_cons.mp hem with h1 | h2
        · exfalso
          rw [h1] at heq
          exact hhg heq
        · exact hgchar e h2 heq
      · intro e hem heq
        rcases List.mem_cons.mp hem with h1 | h2
        · refine ⟨pe, List.mem_cons_of_mem _ hpm, ?_, ?_, ?_⟩
          · rw [h1, hph]
          · rw [h1]
          · rw [h1]
            exact Nat.le_add_right pe.work w
        · obtain ⟨qe, hqm, hq1, hq2, hq3⟩ := hinv e h2 heq
          exact ⟨qe, List.mem_cons_of_mem _ hqm, hq1, hq2, hq3⟩

theorem mapReachInv_applyInserts (g : Nat) (m : List BlockIndexEntry)
    (ops : List (Nat × Nat × Nat)) (hi : mapReachInv g m) :
    mapReachInv g (applyInserts m ops) := by
  induction ops generalizing m with
  | nil => exact hi
  | cons op ops ih => exact ih _ (mapReachInv_insert g m op.1 op.2.1 op.2.2 hi)

theorem mapReachInv_initial (g : Nat) : mapReachInv g (initialBlockMap g) := by
  refine ⟨by simp [initialBlockMap], by simp [initialBlockMap], ?_, ?_⟩
  · intro e hem _
    simp only [initialBlockMap, List.mem_singleton] at hem
    exact hem
  · intro e hem heq
    simp only [initialBlockMap, List.mem_singleton] at hem
    exfalso
    apply heq
    rw [hem]
    rfl

theorem ancestorEntry_work_le (g : Nat) (m : List BlockIndexEntry) (hi : mapReachInv g m)
    (k : Nat) (e : BlockIndexEntry) (hem : e ∈ m) (a : BlockIndexEntry)
    (ha : ancestorEntry m e k = some a) : a.work ≤ e.work ∧ a ∈ m := by
  induction k generalizing e with
  | zero =>
    simp only [ancestorEntry, Option.some.injEq] at ha
    rw [← ha]
    exact ⟨Nat.le_refl _, hem⟩
  | succ k ih =>
    simp only [ancestorEntry] at ha
    cases hl : lookupEntry m e.parent with
    | none => rw [hl] at ha; exact absurd ha (by simp)
    | some pe =>
      rw [hl] at ha
      obtain ⟨hpm, hph⟩ := lookupEntry_mem m e.parent pe hl
      have hwp : pe.work ≤ e.work := by
        by_cases heg : e.hash = g
        · have he : e = genesisEntry g := hi.2.2.1 e hem heg
          have hpar : e.parent = g := by rw [he]; rfl
          have hpe : pe = genesisEntry g := hi.2.2.1 pe hpm (by rw [hph, hpar])
          rw [he, hpe]
        · obtain ⟨qe, hqm, hq1, _, hq3⟩ := hi.2.2.2 e hem heg
          have : pe = qe := mem_hash_unique m hi.1 pe qe hpm hqm (by rw [hph, hq1])
          rw [this]
          exact hq3
      obtain ⟨hw, ham⟩ := ih pe hpm ha
      exact ⟨Nat.le_trans hw hwp, ham⟩

/-- C7: every map reachable from the genesis-only map by InsertBlockIndex
insertions satisfies the block-index invariant — every entry except
genesis has its parent present with height exactly one less, and
cumulative work is monotone along every ancestor path back toward
genesis. -/
theorem mapBlockIndex_invariant (g : Nat) (ops : List (Nat × Nat × Nat)) :
    mapInvariant g (applyInserts (initialBlockMap g) ops) ∧
    (∀ e ∈ applyInserts (initialBlockMap g) ops, ∀ k a,
      ancestorEntry (applyInserts (initialBlockMap g) ops) e k = some a →
      a.work ≤ e.work) := by
  have hi := mapReachInv_applyInserts g (initialBlockMap g) ops (mapReachInv_initial g)
  refine ⟨hi.2.2.2, ?_⟩
  intro e hem k a ha
  exact (ancestorEntry_work_le g _ hi k e hem a ha).1

/-! ## Best-chain activation

The body of ActivateBestChain is not part of src/validation.h (declaration
at lines 271-272); the loop below is modelled from section 4.4 of the
design document: repeatedly select the non-failed entry of greatest
cumulative work above the current tip (tie-break: earliest), attempt the
reorganisation to it, and on a connect failure along the new branch mark
the failing entry and its descendants failed and try again; the loop ends
when no non-failed candidate beats the tip. -/

/-- A block-index entry as best-chain selection consumes it.  connectOk
records whether ConnectBlock succeeds for the block (a consensus failure
during connect is permanent for that block, section 4.4). -/
structure ChainEntry where
  hash : Nat
  parent : Nat
  work : Nat
  failed : Bool
  connectOk : Bool
deriving DecidableEq, Repr

/-- Whole chain state: the block-index entries, the active tip hash, and
the UTXO view. -/
structure ChainState where
  entries : List ChainEntry
  tip : Nat
  view : CoinsView

/-- Lookup of a chain entry by hash. -/
def findCE (l : List ChainEntry) (h : Nat) : Option ChainEntry :=
  l.find? (fun e => e.hash == h)

/-- Cumulative work of the active tip. -/
def tipWork (s : ChainState) : Nat :=
  match findCE s.entries s.tip with
  | some e => e.work
  | none => 0

/-- First entry of maximal work in a list (first wins ties: earliest
received). -/
def maxWorkEntry : List ChainEntry → Option ChainEntry
  | [] => none
  | e :: es =>
    match maxWorkEntry es with
    | none => some e
    | some b => if e.work < b.work then some b else some e

/-- Entries eligible to replace the tip: not failed and of strictly
greater cumulative work. -/
def candidates (s : ChainState) : List ChainEntry :=
  s.entries.filter (fun e => !e.failed && decide (tipWork s < e.work))

/-- The reorganisation target: the best non-failed entry above the tip. -/
def bestCandidate (s : ChainState) : Option ChainEntry :=
  maxWorkEntry (candidates s)

/-- Fuel-bounded walk of ancestor hashes (self first), following parent
keys. -/
def ancestorHashes (l : List ChainEntry) : Nat → Nat → List Nat
  | 0, _ => []
  | fuel + 1, h =>
    h :: (match findCE l h with
      | none => []
      | some e => if e.parent = h then [] else ancestorHashes l fuel e.parent)

/-- Ancestor-or-self hashes of a block within the index. -/
def ancestorsOf (l : List ChainEntry) (h : Nat) : List Nat :=
  ancestorHashes l (l.length + 1) h

/-- The branch connected during a reorganisation to c: ancestors of c that
are not ancestors of the current tip. -/
def branchOf (s : ChainState) (c : ChainEntry) : List Nat :=
  (ancestorsOf s.entries c.hash).filter (fun h => decide (h ∉ ancestorsOf s.entries s.tip))

/-- Whether ConnectBlock succeeds for the block with the given hash. -/
def entryConnectOk (l : List ChainEntry) (h : Nat) : Bool :=
  match findCE l h with
  | some e => e.connectOk
  | none => false

/-- The first block of the branch, in connect order, whose connect fails. -/
def firstFailing (l : List ChainEntry) (hs : List Nat) : Option Nat :=
  hs.find? (fun h => !entryConnectOk l h)

/-- Mark the failing entry and every entry descending from it as failed
(FAILED and FAILED_PARENT). -/
def markFailedFrom (l : List ChainEntry) (f : Nat) : List ChainEntry :=
  l.map (fun e => if f ∈ ancestorsOf l e.hash then { e with failed := true } else e)

/-- The view after a successful reorganisation: represented best block
moves to the new tip (the UTXO content transformation is performed by the
connect and disconnect operations modelled above). -/
def reorgView (v : CoinsView) (h : Nat) : CoinsView := { v with bestBlock := h }

/-- One iteration of the ActivateBestChain loop: pick the best candidate;
if the whole branch connects, move the tip there; otherwise mark the
failing entry and its descendants failed and keep the tip (the state is
rolled back to the fork point). -/
def stepABC (s : ChainState) : Option ChainState :=
  match bestCandidate s with
  | none => none
  | some c =>
    match firstFailing s.entries (branchOf s c).reverse with
    | none => some { s with tip := c.hash, view := reorgView s.view c.hash }
    | some f => some { s with entries := markFailedFrom s.entries f }

/-- The fuel-bounded loop. -/
def loopABC : Nat → ChainState → ChainState
  | 0, s => s
  | fuel + 1, s =>
    match stepABC s with
    | none => s
    | some s2 => loopABC fuel s2

/-- Number of non-failed entries. -/
def countNonFailed (l : List ChainEntry) : Nat := l.countP (fun e => !e.failed)

/-- Modelled from the spec: ActivateBestChain (declared at validation.h
lines 271-272) run to completion; every iteration either reaches the best
candidate (after which no candidate beats the tip) or permanently fails at
least one candidate, so this fuel always suffices. -/
def activateBestChain (s : ChainState) : ChainState :=
  loopABC (countNonFailed s.entries + 2) s

theorem nodup_key_unique {α : Type} (f : α → Nat) (l : List α)
    (hnd : (l.map f).Nodup) (a b : α) (ha : a ∈ l) (hb : b ∈ l) (hf : f a = f b) :
    a = b := by
  induction l with
  | nil => simp at ha
  | cons x xs ih =>
    simp only [List.map_cons, List.nodup_cons] at hnd
    rcases List.mem_cons.mp ha with ha1 | ha2 <;> rcases List.mem_cons.mp hb with hb1 | hb2
    · rw [ha1, hb1]
    · exfalso
      apply hnd.1
      rw [ha1] at hf
      rw [hf]
      exact List.mem_map_of_mem f hb2
    · exfalso
      apply hnd.1
      rw [hb1] at hf
      rw [← hf]
      exact List.mem_map_of_mem f ha2
    · exact ih hnd.2 ha2 hb2

theorem maxWorkEntry_ne_none (x : ChainEntry) (xs : List ChainEntry) :
    maxWorkEntry (x :: xs) ≠ none := by
  simp only [maxWorkEntry]
  cases hm : maxWorkEntry xs with
  | none => simp
  | some b =>
    by_cases hlt : x.work < b.work
    · simp [hlt]
    · simp [hlt]

theorem maxWorkEntry_spec (l : List ChainEntry) (c : ChainEntry)
    (h : maxWorkEntry l = some c) : c ∈ l ∧ ∀ e ∈ l, e.work ≤ c.work := by
  induction l generalizing c with
  | nil => simp [maxWorkEntry] at h
  | cons e es ih =>
    simp only [maxWorkEntry] at h
    cases hm : maxWorkEntry es with
    | none =>
      rw [hm] at h
      simp only [Option.some.injEq] at h
      rw [← h]
      cases es with
      | nil =>
        refine ⟨List.mem_singleton_self e, ?_⟩
        intro x hx
        rcases List.mem_cons.mp hx with h1 | h2
        · rw [h1]
        · simp at h2
      | cons y ys => exact absurd hm (maxWorkEntry_ne_none y ys)
    | some b =>
      rw [hm] at h
      dsimp only at h
      obtain ⟨hbm, hbb⟩ := ih b hm
      by_cases hlt : e.work < b.work
      · rw [if_pos hlt] at h
        simp only [Option.some.injEq] at h
        rw [← h]
        refine ⟨List.mem_cons_of_mem _ hbm, ?_⟩
        intro x hx
        rcases List.mem_cons.mp hx with h1 | h2
        · rw [h1]; exact Nat.le_of_lt hlt
        · exact hbb x h2
      · rw [if_neg hlt] at h
        simp only [Option.some.injEq] at h
        rw [← h]
        refine ⟨List.mem_cons_self _ _, ?_⟩
        intro x hx
        rcases List.mem_cons.mp hx with h1 | h2
        · rw [h1]
        · exact Nat.le_trans (hbb x h2) (Nat.le_of_not_lt hlt)

theorem findCE_self (l : List ChainEntry) (hnd : (l.map ChainEntry.hash).Nodup)
    (c : ChainEntry) (hc : c ∈ l) : findCE l c.hash = some c := by
  cases hf : findCE l c.hash with
  | none =>
    exfalso
    have := List.find?_eq_none.mp hf c hc
    simp at this
  | some e =>
    have hm := List.mem_of_find?_eq_some hf
    have hp := List.find?_some hf
    simp only [beq_iff_eq] at hp
    rw [nodup_key_unique ChainEntry.hash l hnd e c hm hc hp]

theorem candidate_mem (s : ChainState) (c : ChainEntry) (hc : c ∈ candidates s) :
    c ∈ s.entries ∧ c.failed = false ∧ tipWork s < c.work := by
  have h := List.mem_filter.mp hc
  have h2 := h.2
  simp only [Bool.and_eq_true, Bool.not_eq_true', decide_eq_true_eq] at h2
  exact ⟨h.1, h2.1, h2.2⟩

theorem step_success_none (s : ChainState) (c : ChainEntry)
    (hnd : (s.entries.map ChainEntry.hash).Nodup)
    (hbc : bestCandidate s = some c) :
    stepABC { s with tip := c.hash, view := reorgView s.view c.hash } = none := by
  obtain ⟨hcm, hcb⟩ := maxWorkEntry_spec (candidates s) c hbc
  obtain ⟨hce, hcf, hcw⟩ := candidate_mem s c hcm
  have htw : tipWork { s with tip := c.hash, view := reorgView s.view c.hash } = c.work := by
    simp only [tipWork]
    rw [findCE_self s.entries hnd c hce]
  have hcand : candidates { s with tip := c.hash, view := reorgView s.view c.hash } = [] := by
    simp only [candidates]
    rw [List.filter_eq_nil_iff]
    intro e he
    simp only [Bool.and_eq_true, Bool.not_eq_true', decide_eq_true_eq, not_and]
    intro hef
    rw [htw]
    intro hgt
    have hec : e ∈ candidates s := by
      simp only [candidates]
      rw [List.mem_filter]
      refine ⟨he, ?_⟩
      simp only [Bool.and_eq_true, Bool.not_eq_true', decide_eq_true_eq]
      exact ⟨hef, Nat.lt_trans hcw hgt⟩
    exact Nat.not_le_of_lt hgt (hcb e hec)
  simp only [stepABC, bestCandidate, hcand, maxWorkEntry]

theorem countNonFailed_map_le (l : List ChainEntry) (g : ChainEntry → ChainEntry)
    (hg : ∀ e, g e = e ∨ (g e).failed = true) :
    countNonFailed (l.map g) ≤ countNonFailed l := by
  induction l with
  | nil => simp [countNonFailed]
  | cons x xs ih =>
    simp only [countNonFailed, List.map_cons, List.countP_cons] at ih ⊢
    have h0 : (if (!(true : Bool)) = true then 1 else 0) = 0 := rfl
    rcases hg x with h1 | h1
    · rw [h1]; omega
    · rw [h1, h0]
      omega

theorem countNonFailed_map_lt (l : List ChainEntry) (g : ChainEntry → ChainEntry)
    (hg : ∀ e, g e = e ∨ (g e).failed = true) (c : ChainEntry) (hc : c ∈ l)
    (hcf : c.failed = false) (hgc : (g c).failed = true) :
    countNonFailed (l.map g) < countNonFailed l := by
  induction l with
  | nil => simp at hc
  | cons x xs ih =>
    simp only [countNonFailed, List.map_cons, List.countP_cons] at ih ⊢
    have h0 : (if (!(true : Bool)) = true then 1 else 0) = 0 := rfl
    have ho : (if (!(false : Bool)) = true then 1 else 0) = 1 := rfl
    rcases List.mem_cons.mp hc with h1 | h2
    · have hgx : (g x).failed = true := by rw [← h1]; exact hgc
      have hxf : x.failed = false := by rw [← h1]; exact hcf
      have hle := countNonFailed_map_le xs g hg
      simp only [countNonFailed] at hle
      rw [hgx, hxf, h0, ho]
      omega
    · have hlt := ih h2
      rcases hg x with hx | hx
      · rw [hx]; omega
      · rw [hx, h0]
        omega

theorem markFailedFrom_hashes (l : List ChainEntry) (f : Nat) :
    (markFailedFrom l f).map ChainEntry.hash = l.map ChainEntry.hash := by
  simp only [markFailedFrom, List.map_map]
  apply List.map_congr_left
  intro e _
  simp only [Function.comp_apply]
  split <;> rfl

theorem markFailedFrom_cases (l : List ChainEntry) (f : Nat) (e : ChainEntry) :
    (if f ∈ ancestorsOf l e.hash then { e with failed := true } else e) = e ∨
    (if f ∈ ancestorsOf l e.hash then { e with failed := true } else e).failed = true := by
  split
  · right; rfl
  · left; rfl

theorem step_fail_count (s : ChainState) (c : ChainEntry) (f : Nat)
    (hbc : bestCandidate s = some c)
    (hff : firstFailing s.entries (branchOf s c).reverse = some f) :
    countNonFailed (markFailedFrom s.entries f) < countNonFailed s.entries := by
  obtain ⟨hcm, _⟩ := maxWorkEntry_spec (candidates s) c hbc
  obtain ⟨hce, hcf, _⟩ := candidate_mem s c hcm
  have hfb : f ∈ branchOf s c := by
    have := List.mem_of_find?_eq_some hff
    exact List.mem_reverse.mp this
  have hfa : f ∈ ancestorsOf s.entries c.hash := (List.mem_filter.mp hfb).1
  exact countNonFailed_map_lt s.entries _ (markFailedFrom_cases s.entries f) c hce hcf
    (by simp [hfa])

theorem loopABC_stable (fuel : Nat) (s : ChainState) (h : stepABC s = none)
    (hf : 1 ≤ fuel) : loopABC fuel s = s := by
  cases fuel with
  | zero => omega
  | succ fuel => simp [loopABC, h]

theorem loopABC_fuel_reaches_fixpoint (fuel : Nat) (s : ChainState)
    (hnd : (s.entries.map ChainEntry.hash).Nodup)
    (h : countNonFailed s.entries + 2 ≤ fuel) :
    stepABC (loopABC fuel s) = none := by
  induction fuel generalizing s with
  | zero => omega
  | succ fuel ih =>
    cases hs : stepABC s with
    | none =>
      simp only [loopABC, hs]
    | some s2 =>
      simp only [loopABC, hs]
      simp only [stepABC] at hs
      split at hs
      · exact absurd hs (by simp)
      · rename_i c hbc
        split at hs
        · rename_i hff
          simp only [Option.some.injEq] at hs
          have h2 : stepABC s2 = none := by
            rw [← hs]
            exact step_success_none s c hnd hbc
          rw [loopABC_stable fuel s2 h2 (by omega)]
          exact h2
        · rename_i f hff
          simp only [Option.some.injEq] at hs
          have hlt : countNonFailed s2.entries < countNonFailed s.entries := by
            rw [← hs]
            exact step_fail_count s c f hbc hff
          have hnd2 : (s2.entries.map ChainEntry.hash).Nodup := by
            rw [← hs]
            simp only []
            rw [markFailedFrom_hashes]
            exact hnd
          exact ih s2 hnd2 (by omega)

/-- C6: ActivateBestChain is idempotent — once it has run to completion on
any hash-consistent state, running it again with no new headers changes
nothing: the tip, the block-index entries with their failure flags, and
the view are all exactly the same state. -/
theorem activateBestChain_idempotent (s : ChainState)
    (hnd : (s.entries.map ChainEntry.hash).Nodup) :
    activateBestChain (activateBestChain s) = activateBestChain s := by
  have h1 : stepABC (activateBestChain s) = none :=
    loopABC_fuel_reaches_fixpoint (countNonFailed s.entries + 2) s hnd (Nat.le_refl _)
  unfold activateBestChain
  exact loopABC_stable _ _ h1 (by omega)

/-- A concrete two-entry chain state for the idempotence witness. -/
def chainS : ChainState :=
  { entries := [⟨1, 1, 1, false, true⟩, ⟨2, 1, 5, false, true⟩],
    tip := 1,
    view := ⟨fun _ => none, 1⟩ }

/-- C6 witness: idempotence on the concrete two-block state. -/
theorem activateBestChain_idempotent_witness :
    activateBestChain (activateBestChain chainS) = activateBestChain chainS :=
  activateBestChain_idempotent chainS (by decide)

/-- C4 witness: the exact boundary at a concrete input confirmed at height
10 with a 2-confirmation relative lock — non-final at height 11, final at
height 12. -/
theorem sequenceLocks_final_iff_witness :
    sequenceLocks [⟨RelLock.blocks 2, 10, 0⟩] 11 0 = false ∧
    sequenceLocks [⟨RelLock.blocks 2, 10, 0⟩] 12 0 = true := by
  have h := sequenceLocks_final_iff [] 0 0
  exact ⟨h.2.1 10 0, h.2.2 10 0⟩

/-- C7 witness: the invariant holds on the concrete map built by two
insertions on top of genesis. -/
theorem mapBlockIndex_invariant_witness :
    mapInvariant 1 (applyInserts (initialBlockMap 1) [(2, 1, 5), (3, 2, 7)]) :=
  (mapBlockIndex_invariant 1 [(2, 1, 5), (3, 2, 7)]).1
